import Mathlib

/-!
Verification of the mongodb-restore package, source file src/index.js.

Shallow embedding of the streaming restore pipeline of `mongodb-restore`
version 1.6.0 (`src/index.js`) and proofs about it.

Modelling conventions:

* The database driver is modelled by a `Db` record of deterministic
  response functions: for each kind of request the environment says which
  error (if any) the driver reports.  `db.collection(name, cb)` is modelled
  as always yielding a usable collection handle, matching the driver's
  non-strict mode in which acquiring a handle performs no I/O and cannot
  fail.
* Every callback-driven source function becomes a pure Lean function that
  returns the ordered list of requests it issued (`Event`s), the list of
  messages passed to the `error` logger, the argument finally handed to its
  callback, and the updated state.  An outer `Option` models crashes:
  `none` means the JavaScript would have thrown a `TypeError`
  (e.g. a regular expression `exec` returning `null` being indexed, or
  `dataToWrite[name].map` on a missing key), so the callback never runs.
* `writer.drain` is recursive through callbacks and, on a pathological
  state in which a pending key holds an empty buffer, would recurse
  forever (`writeAllInCollection` calls back without deleting the key).
  It is therefore embedded with explicit fuel, `none` standing for
  non-termination; the invariant theorems show buffers are never empty so
  drain terminates with fuel `length + 1`.
* Decoded documents are abstract (`Doc := Nat`); blobs are byte lists.
  Which decoder ran on which blob is recorded in the event trace
  (`Event.parse`), the decoded value is produced by an environment
  function `Env.parse : ParserKind → Blob → Doc`.
* Path strings (already normalised to `/` separators by the source's
  `replace(/\\/g, '/')`) are represented by their segment lists.  The
  three name-extracting regular expressions of `streamListener` become
  `Option`-valued functions: `.*/([^\/]+)/?$` takes the last segment and
  requires at least two segments, `.*/([^\/]+)/[^\/]+$` takes the
  second-to-last and requires at least three, `.*/[^\/]+/([^\/]+)$` takes
  the last and requires at least three; with fewer segments `exec`
  returns `null` and the subsequent `[1]` throws, i.e. the model crashes.
-/

namespace MongoRestore

/-- Collection names (JavaScript strings). -/
abbrev CName := String

/-- Error values delivered to callbacks / the logger.  Only their identity
matters, so strings suffice. -/
abbrev Err := String

/-- Decoded documents are opaque to the restore pipeline; it only moves
them around.  `Nat` is a convenient concrete stand-in. -/
abbrev Doc := Nat

/-- A file's fully buffered byte content (`Buffer.concat(buffers)`). -/
abbrev Blob := List Nat

/-- Which document decoder a blob was decoded with: `jsonParser`,
`bsonParser`, or a caller-supplied function (`typeof my.parser ===
'function'`), the latter identified by an index. -/
inductive ParserKind where
  | json
  | bson
  | custom (id : Nat)
  deriving DecidableEq

/-- One request issued to an external collaborator, or one writer-level
dispatch, in program order.  `addDocument` records a call of
`writer.addDocument` (the document's destination), `selectCollection`
a `db.collection(name, cb)` handle acquisition, `parse` the decoder
actually applied to a blob, `readBlob` that a file stream's content was
consumed and buffered. -/
inductive Event where
  | connect
  | close
  | dropDatabase
  | listCollections
  | selectCollection (name : CName)
  | dropCollection (name : CName)
  | createCollection (name : CName)
  | addDocument (name : CName) (doc : Doc)
  | bulkWrite (name : CName) (docs : List Doc)
  | createIndexes (name : CName) (specs : Doc)
  | readBlob (blob : Blob)
  | parse (kind : ParserKind) (blob : Blob)
  deriving DecidableEq

/-- Predicate: `Event.isCreateIndexes e = true` iff `e` is a create-indexes request. -/
def Event.isCreateIndexes : Event → Bool
  | .createIndexes _ _ => true
  | _ => false

/-- The `error(err)` handler: `logger(err.message)` exactly when `err` is
truthy, i.e. it contributes one log line for `some e` and none for
`none`. -/
def logOf : Option Err → List Err
  | none => []
  | some e => [e]

/-- Deterministic model of the database driver's responses: for each
request the environment decides which error, if any, the driver reports
to the request's callback. -/
structure Db where
  createCollectionErr : CName → Option Err
  bulkWriteErr : CName → List Doc → Option Err
  commandErr : CName → Doc → Option Err
  dropErr : CName → Option Err

/-- The writer's `dataToWrite` object: an insertion-ordered association of
collection names to their pending document buffers.  `Object.keys` order
for string keys is insertion order, so the association list's order is
exactly the key order the source observes. -/
abbrev WState := List (CName × List Doc)

/-- Lookup of `dataToWrite[n]`: the buffer of the first (unique, in every reachable
state) occurrence of key `n`. -/
def lookupBuf : WState → CName → Option (List Doc)
  | [], _ => none
  | p :: rest, n => if p.1 = n then some p.2 else lookupBuf rest n

/-- The effect of `addDocument`'s buffer update: `dataToWrite[n].push(doc)`
when the key exists, `dataToWrite[n] = [document]` otherwise (a fresh key
goes to the end of the key order). -/
def pushDoc : WState → CName → Doc → WState
  | [], n, d => [(n, [d])]
  | p :: rest, n, d =>
      if p.1 = n then (n, p.2 ++ [d]) :: rest else p :: pushDoc rest n d

/-- The effect of `delete dataToWrite[n]`. -/
def eraseBuf (st : WState) (n : CName) : WState :=
  st.filter (fun p => p.1 ≠ n)

/-- Result of one writer-level operation: requests issued, `error`-logged
messages, the argument passed to the operation's callback, and the
updated `dataToWrite`. -/
structure WRes where
  events : List Event
  log : List Err
  err : Option Err
  st : WState
  deriving DecidableEq

/-- Model of `writeAllInCollection(collectionName, callback)`: maps the pending
buffer to insert operations (crashing — `none` — if the key is absent,
as `undefined.map` throws); with zero operations calls back `null`
without touching the map; otherwise acquires the collection handle,
issues one `bulkWrite` of the whole buffer, deletes the key, and calls
back with the `bulkWrite` error. -/
def writeAllInCollection (db : Db) (st : WState) (n : CName) : Option WRes :=
  match lookupBuf st n with
  | none => none
  | some docs =>
      if docs.length = 0 then some ⟨[], [], none, st⟩
      else some ⟨[.selectCollection n, .bulkWrite n docs], [],
                 db.bulkWriteErr n docs, eraseBuf st n⟩

/-- Model of `writer.createCollection(collectionName, next)`: issues the
create-collection request and hands the driver's response directly to
`next` (the writer adds no handling of its own here). -/
def createCollection (db : Db) (n : CName) : List Event × Option Err :=
  ([.createCollection n], db.createCollectionErr n)

/-- Model of `writer.addDocument(collectionName, document, next)`: push the
document onto the collection's buffer (creating it if needed); if the
buffer's length now exceeds 50, flush via `writeAllInCollection` and pass
its error to `next`; otherwise ack `next(null)` without flushing. -/
def addDocument (db : Db) (st : WState) (n : CName) (d : Doc) : Option WRes :=
  let st1 := pushDoc st n d
  if 50 < ((lookupBuf st1 n).getD []).length then
    match writeAllInCollection db st1 n with
    | none => none
    | some r => some ⟨.addDocument n d :: r.events, r.log, r.err, r.st⟩
  else
    some ⟨[.addDocument n d], [], none, st1⟩

/-- Model of `writer.drain(callback)`, with explicit fuel standing in for the
callback recursion: with no pending keys, `callback(null)`; otherwise
flush the first key (`Object.keys(dataToWrite)[0]`), log its error, and
recurse with the same callback.  `none` models non-termination (fuel
exhausted). -/
def drainFuel (db : Db) : Nat → WState → Option WRes
  | 0, _ => none
  | _ + 1, [] => some ⟨[], [], none, []⟩
  | fuel + 1, p :: rest =>
      match writeAllInCollection db (p :: rest) p.1 with
      | none => none
      | some r =>
          match drainFuel db fuel r.st with
          | none => none
          | some r2 =>
              some ⟨r.events ++ r2.events, (r.log ++ logOf r.err) ++ r2.log,
                    r2.err, r2.st⟩

/-- One entry of the listener's `metadata` array:
`{collectionName: metadataName, document: jsonParser().parse(...)}`. -/
structure MetaRec where
  collectionName : CName
  document : Doc
  deriving DecidableEq

/-- Result of `writer.addIndices`: requests issued, logged messages, and
the argument of its (single) callback invocation. -/
structure IRes where
  events : List Event
  log : List Err
  err : Option Err
  deriving DecidableEq

/-- Model of `writer.addIndices(indices, callback)`: with an empty record list,
`callback(null)`; otherwise pop the LAST record (`indices.pop()`), issue
`db.command({createIndexes: r.collectionName, indexes: r.document})`,
log the driver's error, and recurse on the remaining records with the
same callback. -/
def addIndices (db : Db) (recs : List MetaRec) : IRes :=
  match h : recs.getLast? with
  | none => ⟨[], [], none⟩
  | some r =>
      let rest := addIndices db recs.dropLast
      ⟨.createIndexes r.collectionName r.document :: rest.events,
       logOf (db.commandErr r.collectionName r.document) ++ rest.log,
       rest.err⟩
termination_by recs.length
decreasing_by
  cases recs with
  | nil => simp at h
  | cons a as => simp [List.length_dropLast]

/-- The model of `collectionNameForDirectory`, the regular expression
`.*/([^\/]+)/?$`, on a slash-separated path given by its segments: the
last segment, defined only when a separator precedes it (at least two
segments); otherwise `exec` yields `null` and the caller crashes. -/
def dirCollectionName (segs : List String) : Option String :=
  if 2 ≤ segs.length then segs.getLast? else none

/-- The model of `collectionNameForFiles`, the regular expression
`.*/([^\/]+)/[^\/]+$`: the second-to-last segment, defined only with at
least three segments. -/
def fileCollectionName (segs : List String) : Option String :=
  if 3 ≤ segs.length then segs[segs.length - 2]? else none

/-- The model of `metadataFilenameRegexp`, the regular expression
`.*/[^\/]+/([^\/]+)$`: the last segment, defined only with at least
three segments. -/
def metadataFilename (segs : List String) : Option String :=
  if 3 ≤ segs.length then segs.getLast? else none

/-- The stream listener's mutable state: the writer's `dataToWrite` and
the listener's `metadata` array. -/
structure LState where
  wst : WState
  meta : List MetaRec
  deriving DecidableEq

/-- The run's environment: driver responses plus the semantics of each
decoder (`Env.parse k b` is the document decoder `k` yields on blob
`b`). -/
structure Env where
  db : Db
  parse : ParserKind → Blob → Doc

/-- Model of `streamListener.onDirectory(directoryName, callback)`: extract the
collection name from the last path segment (crash when the regular
expression does not match); the reserved name `.metadata` is
acknowledged without action, any other name is passed to
`writer.createCollection` with the entry's callback. -/
def onDirectory (env : Env) (st : LState) (segs : List String) : Option WRes :=
  match dirCollectionName segs with
  | none => none
  | some c =>
      if c = ".metadata" then some ⟨[], [], none, st.wst⟩
      else
        let r := createCollection env.db c
        some ⟨r.1, [], r.2, st.wst⟩

/-- Result of one listener-level dispatch. -/
structure LRes where
  events : List Event
  log : List Err
  err : Option Err
  st : LState
  deriving DecidableEq

/-- The model of `streamListener.onDirectory` packaged with the listener state. -/
def onDirectoryL (env : Env) (st : LState) (segs : List String) : Option LRes :=
  match onDirectory env st segs with
  | none => none
  | some r => some ⟨r.events, r.log, r.err, ⟨r.st, st.meta⟩⟩

/-- Model of `streamListener.onFile(name, stream, callback)`: extract the parent
segment as the collection name (crash on no match).  For the reserved
parent `.metadata`: first extract the metadata collection name from the
filename (crash on no match); with metadata support disabled, call back
immediately — the stream is never consumed; with support enabled, buffer
the stream, decode it with `jsonParser` (always JSON, independent of the
configured parser), append the record to `metadata`, call back `null`.
For an ordinary parent: buffer the stream, decode it with the configured
parser, and hand the document to `writer.addDocument` with the entry's
callback. -/
def onFile (env : Env) (pk : ParserKind) (support : Bool) (st : LState)
    (segs : List String) (blob : Blob) : Option LRes :=
  match fileCollectionName segs with
  | none => none
  | some c =>
      if c = ".metadata" then
        match metadataFilename segs with
        | none => none
        | some mname =>
            if support = false then some ⟨[], [], none, st⟩
            else
              some ⟨[.readBlob blob, .parse .json blob], [], none,
                    ⟨st.wst, st.meta ++ [⟨mname, env.parse .json blob⟩]⟩⟩
      else
        match addDocument env.db st.wst c (env.parse pk blob) with
        | none => none
        | some r =>
            some ⟨.readBlob blob :: .parse pk blob :: r.events, r.log, r.err,
                  ⟨r.st, st.meta⟩⟩

/-- Result of `streamListener.finish` (whose callback takes no
argument). -/
structure FRes where
  events : List Event
  log : List Err
  deriving DecidableEq

/-- Model of `streamListener.finish(callback)`: run `writer.drain`; log its error;
with metadata support disabled, call back at once; otherwise run
`writer.addIndices` over the accumulated `metadata` records, log its
error, then call back.  `none` models a diverging drain. -/
def finish (env : Env) (support : Bool) (fuel : Nat) (st : LState) :
    Option FRes :=
  match drainFuel env.db fuel st.wst with
  | none => none
  | some r =>
      if support = false then some ⟨r.events, r.log ++ logOf r.err⟩
      else
        let ri := addIndices env.db st.meta
        some ⟨r.events ++ ri.events,
              ((r.log ++ logOf r.err) ++ ri.log) ++ logOf ri.err⟩

/-- One dump entry as delivered to the listener: a directory announcement
or a file with its byte content. -/
inductive Entry where
  | dir (segs : List String)
  | file (segs : List String) (blob : Blob)
  deriving DecidableEq

/-- Outcome of feeding a sequence of entries to the listener, one at a
time, the driving loop logging each entry's callback error and
continuing (as `fileSystemDataSource`'s `addCollections`/`addFiles`
do).  `crashed = true` records that an entry's handler threw, ending the
run with the trace accumulated so far. -/
structure RunOut where
  events : List Event
  log : List Err
  crashed : Bool
  st : LState
  deriving DecidableEq

/-- Feed entries to the listener sequentially from state `st`. -/
def runEntries (env : Env) (pk : ParserKind) (support : Bool) :
    List Entry → LState → RunOut
  | [], st => ⟨[], [], false, st⟩
  | e :: es, st =>
      match (match e with
             | .dir segs => onDirectoryL env st segs
             | .file segs blob => onFile env pk support st segs blob) with
      | none => ⟨[], [], true, st⟩
      | some r =>
          let rest := runEntries env pk support es r.st
          ⟨r.events ++ rest.events, (r.log ++ logOf r.err) ++ rest.log,
           rest.crashed, rest.st⟩

/-- Outcome of a datasource's `begin`: requests, logs, and `some e?` when
`begin`'s completion callback ran with error `e?`, `none` when the run
crashed or diverged before reaching it. -/
structure BeginOut where
  events : List Event
  log : List Err
  result : Option (Option Err)
  deriving DecidableEq

/-- A whole dispatch run: all entries from the fresh listener state
(`dataToWrite = {}`, `metadata = []`), then `streamListener.finish`,
whose argument-less callback completes `begin` without error. -/
def runPipeline (env : Env) (pk : ParserKind) (support : Bool) (fuel : Nat)
    (entries : List Entry) : BeginOut :=
  let r := runEntries env pk support entries ⟨[], []⟩
  if r.crashed then ⟨r.events, r.log, none⟩
  else
    match finish env support fuel r.st with
    | none => ⟨r.events, r.log, none⟩
    | some f => ⟨r.events ++ f.events, r.log ++ f.log, some none⟩

/-- The test of `systemRegex`, the pattern for a leading system-dot prefix. -/
def isSystemName (n : CName) : Bool :=
  n.startsWith "system."

/-- Model of `someCollections(db, collections, next)`: on an empty list,
`next(null)` at once; otherwise, for each name, acquire the collection
handle (which, in the driver's non-strict mode, always succeeds) and
issue its `drop`, logging any drop error; once every drop attempt has
completed, `next(null)`.  The source issues the drops concurrently and
joins on a counter; the model lists the requests in list order, which is
adequate because nothing later depends on the interleaving. -/
def someCollections (db : Db) (names : List CName) : IRes :=
  ⟨names.flatMap (fun n => [.selectCollection n, .dropCollection n]),
   names.flatMap (fun n => logOf (db.dropErr n)),
   none⟩

/-- The configured drop policy: none, `drop: true` (whole database),
`dropCollections` as an explicit array, or `dropCollections` truthy but
not an array ("all existing"). -/
inductive DropMode where
  | noDrop
  | wholeDb
  | subset (names : List CName)
  | allExisting
  deriving DecidableEq

/-- Environment for the `go` entry point: the connection outcome, the
`db.collections()` listing outcome, the `db.dropDatabase` outcome, and
the driver responses used downstream. -/
structure GoEnv where
  connectErr : Option Err
  collectionsRes : Except Err (List CName)
  dropDbErr : Option Err
  db : Db

/-- Outcome of the pre-import drop phase: requests, logs, and `some e?`
when the phase completed and `importDataToDb(e?)` is invoked, `none`
when the phase crashed (callback never runs). -/
structure DropRes where
  events : List Event
  log : List Err
  res : Option (Option Err)
  deriving DecidableEq

/-- The drop step of `go`, between a successful connect and
`importDataToDb`.  `drop: true` issues `dropDatabase` and passes its
error on.  An explicit `dropCollections` array goes through
`someCollections`.  The "all existing" variant first calls
`db.collections()`: on a listing error the handler merely logs it and
then reads `collections.length` of `undefined`, throwing a `TypeError` —
the run crashes with no drop issued (`res = none`); on success it keeps
the names not matching `systemRegex` and proceeds as the explicit
variant. -/
def dropPhase (genv : GoEnv) : DropMode → DropRes
  | .noDrop => ⟨[], [], some none⟩
  | .wholeDb => ⟨[.dropDatabase], [], some genv.dropDbErr⟩
  | .subset names =>
      let r := someCollections genv.db names
      ⟨r.events, r.log, some r.err⟩
  | .allExisting =>
      match genv.collectionsRes with
      | .error e => ⟨[.listCollections], [e], none⟩
      | .ok cols =>
          let names := cols.filter (fun n => isSystemName n = false)
          let r := someCollections genv.db names
          ⟨.listCollections :: r.events, r.log, some r.err⟩

/-- Final outcome of `go`: the full request trace, the `error`-logged
messages, and `some e?` when the terminal `callback` ran with `e?`,
`none` when it never ran (crash or divergence). -/
structure GoOut where
  events : List Event
  log : List Err
  result : Option (Option Err)
  deriving DecidableEq

/-- Model of `importDataToDb(err)`: a drop-phase error closes the connection and
reaches the terminal callback directly; otherwise `datasource.begin`
runs, and its completion closes the connection and forwards its error to
the terminal callback. -/
def importDataToDb (begin : BeginOut) : Option Err → List Event × List Err × Option (Option Err)
  | some e => ([.close], [], some (some e))
  | none =>
      match begin.result with
      | none => (begin.events, begin.log, none)
      | some r => (begin.events ++ [.close], begin.log, some r)

/-- Model of `go(datasource)`: connect to the target (a connection error reaches
the terminal callback directly, with nothing else touched), run the
configured drop phase, then `importDataToDb`. -/
def go (genv : GoEnv) (mode : DropMode) (begin : BeginOut) : GoOut :=
  match genv.connectErr with
  | some e => ⟨[.connect], [], some (some e)⟩
  | none =>
      let d := dropPhase genv mode
      match d.res with
      | none => ⟨.connect :: d.events, d.log, none⟩
      | some derr =>
          let i := importDataToDb begin derr
          ⟨.connect :: (d.events ++ i.1), d.log ++ i.2.1, i.2.2⟩

/-- The error string `fileSystemDataSource.begin` passes to its callback
when the dump root does not hold exactly one entry.  (`JSON.toString` is
`Object.prototype.toString` called on the `JSON` object — the argument is
ignored and the suffix is the constant `"[object JSON]"`.) -/
def configMsg : Err :=
  "Found multiple directories and only support one: [object JSON]"

/-- Model of the on-disk dump tree that `fileSystemDataSource` walks:
the segments of the root path, the root's entries, the database
directory's entries (the collection directories), and each collection
directory's files with their contents. -/
structure FSModel where
  rootPrefix : List String
  rootDirs : List String
  collDirs : List String
  filesOf : String → List (String × Blob)

/-- The entries `fileSystemDataSource` delivers for a root whose single
top-level entry is `dbname`: `addCollections` pops collection paths from
the END of the listing (reverse listing order), then `addFiles` pops
from the end of the concatenated per-directory file listings. -/
def fsEntries (fsm : FSModel) (dbname : String) : List Entry :=
  let dbRoot := fsm.rootPrefix ++ [dbname]
  fsm.collDirs.reverse.map (fun d => Entry.dir (dbRoot ++ [d])) ++
    (fsm.collDirs.flatMap
      (fun d => (fsm.filesOf d).map
        (fun fb => Entry.file (dbRoot ++ [d, fb.1]) fb.2))).reverse

/-- Model of `fileSystemDataSource(rootDir).begin`: with anything other than
exactly one top-level entry, call back at once with the configuration
error, before anything else happens; otherwise enumerate the single
database directory and run the dispatch pipeline over its entries. -/
def fsBegin (env : Env) (pk : ParserKind) (support : Bool) (fuel : Nat)
    (fsm : FSModel) : BeginOut :=
  match fsm.rootDirs with
  | [dbname] => runPipeline env pk support fuel (fsEntries fsm dbname)
  | _ => ⟨[], [], some (some configMsg)⟩

/-- The configured document decoder before resolution: a caller-supplied
function or a string tag. -/
inductive ParserOpt where
  | fn (id : Nat)
  | tag (s : String)
  deriving DecidableEq

/-- The parser resolution of `wrapper`: a function is used as-is; otherwise the
tag is lowercased and `'bson'` / `'json'` select the built-in decoders,
anything else throws `missing parser option`. -/
def selectParserKind : ParserOpt → Except Err ParserKind
  | .fn id => .ok (.custom id)
  | .tag s =>
      if s.toLower = "bson" then .ok .bson
      else if s.toLower = "json" then .ok .json
      else .error "missing parser option"

/-! ## Basic facts about the pending-buffer map -/

theorem lookupBuf_pushDoc_self (st : WState) (n : CName) (d : Doc) :
    lookupBuf (pushDoc st n d) n = some ((lookupBuf st n).getD [] ++ [d]) := by
  induction st with
  | nil => simp [pushDoc, lookupBuf]
  | cons p rest ih =>
      by_cases hp : p.1 = n
      · simp [pushDoc, lookupBuf, hp]
      · simp [pushDoc, lookupBuf, hp, ih]

theorem lookupBuf_eraseBuf_self (st : WState) (n : CName) :
    lookupBuf (eraseBuf st n) n = none := by
  induction st with
  | nil => rfl
  | cons p rest ih =>
      by_cases hp : p.1 = n
      · simpa [eraseBuf, List.filter_cons, hp] using ih
      · simpa [eraseBuf, List.filter_cons, hp, lookupBuf] using ih

theorem length_eraseBuf_lt (st : WState) (n : CName) (ds : List Doc)
    (h : lookupBuf st n = some ds) : (eraseBuf st n).length < st.length := by
  induction st with
  | nil => simp [lookupBuf] at h
  | cons p rest ih =>
      by_cases hp : p.1 = n
      · have he : eraseBuf (p :: rest) n = eraseBuf rest n := by
          simp [eraseBuf, List.filter_cons, hp]
        rw [he]
        calc (eraseBuf rest n).length ≤ rest.length := List.length_filter_le _ _
          _ < (p :: rest).length := by simp
      · have he : eraseBuf (p :: rest) n = p :: eraseBuf rest n := by
          simp [eraseBuf, List.filter_cons, hp]
        simp only [lookupBuf, hp, if_false] at h
        rw [he]
        simpa using Nat.succ_lt_succ (ih h)

/-- The pending-map invariant: every buffered collection has at least one
pending document. -/
def WInv (st : WState) : Prop := ∀ p ∈ st, p.2 ≠ []

theorem WInv_nil : WInv [] := by intro p hp; cases hp

theorem WInv_pushDoc (st : WState) (n : CName) (d : Doc) (h : WInv st) :
    WInv (pushDoc st n d) := by
  induction st with
  | nil => intro p hp; simp [pushDoc] at hp; simp [hp]
  | cons q rest ih =>
      intro p hp
      by_cases hq : q.1 = n
      · simp [pushDoc, hq] at hp
        rcases hp with hp | hp
        · simp [hp]
        · exact h p (List.mem_cons_of_mem _ hp)
      · simp [pushDoc, hq] at hp
        rcases hp with hp | hp
        · exact h p (hp ▸ List.mem_cons_self _ _)
        · exact ih (fun q hq' => h q (List.mem_cons_of_mem _ hq')) p hp

theorem WInv_eraseBuf (st : WState) (n : CName) (h : WInv st) :
    WInv (eraseBuf st n) := by
  intro p hp
  exact h p (List.mem_of_mem_filter hp)

theorem lookupBuf_mem (st : WState) (n : CName) (ds : List Doc)
    (h : lookupBuf st n = some ds) : (n, ds) ∈ st := by
  induction st with
  | nil => simp [lookupBuf] at h
  | cons p rest ih =>
      by_cases hp : p.1 = n
      · simp only [lookupBuf, hp, if_true, Option.some.injEq] at h
        subst h
        have : p = (n, p.2) := by cases p; simp_all
        exact this ▸ List.mem_cons_self _ _
      · simp only [lookupBuf, hp, if_false] at h
        exact List.mem_cons_of_mem _ (ih h)

theorem WInv_lookupBuf_ne_nil (st : WState) (n : CName) (ds : List Doc)
    (hinv : WInv st) (h : lookupBuf st n = some ds) : ds ≠ [] :=
  hinv (n, ds) (lookupBuf_mem st n ds h)

/-! ## Characterisation of the writer's operations -/

theorem writeAllInCollection_eq (db : Db) (st : WState) (n : CName)
    (ds : List Doc) (h : lookupBuf st n = some ds) (hne : ds ≠ []) :
    writeAllInCollection db st n =
      some ⟨[.selectCollection n, .bulkWrite n ds], [],
            db.bulkWriteErr n ds, eraseBuf st n⟩ := by
  have hlen : ¬ ds.length = 0 := by simpa [List.length_eq_zero] using hne
  simp [writeAllInCollection, h, hlen]

theorem addDocument_no_flush (db : Db) (st : WState) (n : CName) (d : Doc)
    (h : ((lookupBuf st n).getD []).length + 1 ≤ 50) :
    addDocument db st n d = some ⟨[.addDocument n d], [], none, pushDoc st n d⟩ := by
  have h1 := lookupBuf_pushDoc_self st n d
  have hnot : ¬ 50 < ((lookupBuf (pushDoc st n d) n).getD []).length := by
    rw [h1]
    simp only [Option.getD_some, List.length_append, List.length_singleton]
    omega
  simp [addDocument, hnot]

theorem addDocument_flush (db : Db) (st : WState) (n : CName) (d : Doc)
    (ds : List Doc) (h : lookupBuf st n = some ds) (h50 : 50 ≤ ds.length) :
    addDocument db st n d =
      some ⟨[.addDocument n d, .selectCollection n, .bulkWrite n (ds ++ [d])],
            [], db.bulkWriteErr n (ds ++ [d]), eraseBuf (pushDoc st n d) n⟩ := by
  have h1 : lookupBuf (pushDoc st n d) n = some (ds ++ [d]) := by
    simpa [h] using lookupBuf_pushDoc_self st n d
  have hgt : 50 < ((lookupBuf (pushDoc st n d) n).getD []).length := by
    rw [h1]
    simp only [Option.getD_some, List.length_append, List.length_singleton]
    omega
  have hw := writeAllInCollection_eq db (pushDoc st n d) n (ds ++ [d]) h1 (by simp)
  simp [addDocument, hgt, hw]

/-! ## Drain: fuel monotonicity, termination, result shape -/

theorem drainFuel_mono (db : Db) :
    ∀ fuel st r, drainFuel db fuel st = some r →
      drainFuel db (fuel + 1) st = some r := by
  intro fuel
  induction fuel with
  | zero => intro st r h; simp [drainFuel] at h
  | succ fuel ih =>
      intro st r h
      cases st with
      | nil => simpa [drainFuel] using h
      | cons p rest =>
          simp only [drainFuel] at h ⊢
          cases hw : writeAllInCollection db (p :: rest) p.1 with
          | none => simp only [hw] at h; exact absurd h (by simp)
          | some r1 =>
              simp only [hw] at h ⊢
              cases hd : drainFuel db fuel r1.st with
              | none => simp only [hd] at h; exact absurd h (by simp)
              | some r2 =>
                  simp only [hd] at h
                  simp only [ih r1.st r2 hd]
                  exact h

theorem drainFuel_mono_le (db : Db) (fuel fuel' : Nat) (st : WState) (r : WRes)
    (h : drainFuel db fuel st = some r) (hle : fuel ≤ fuel') :
    drainFuel db fuel' st = some r := by
  induction fuel', hle using Nat.le_induction with
  | base => exact h
  | succ m _ ih => exact drainFuel_mono db m st r ih

theorem drain_terminates (db : Db) :
    ∀ k st, st.length ≤ k → WInv st →
      ∃ ev lg, drainFuel db (st.length + 1) st = some ⟨ev, lg, none, []⟩ := by
  intro k
  induction k with
  | zero =>
      intro st hlen _
      have : st = [] := by
        cases st with
        | nil => rfl
        | cons p rest => simp at hlen
      subst this
      exact ⟨[], [], rfl⟩
  | succ k ih =>
      intro st hlen hinv
      cases st with
      | nil => exact ⟨[], [], rfl⟩
      | cons p rest =>
          have hl : lookupBuf (p :: rest) p.1 = some p.2 := by
            simp [lookupBuf]
          have hne : p.2 ≠ [] := hinv p (List.mem_cons_self _ _)
          have hw := writeAllInCollection_eq db (p :: rest) p.1 p.2 hl hne
          have hlt : (eraseBuf (p :: rest) p.1).length < (p :: rest).length :=
            length_eraseBuf_lt _ _ _ hl
          have hinv' : WInv (eraseBuf (p :: rest) p.1) :=
            WInv_eraseBuf _ _ hinv
          obtain ⟨ev2, lg2, h2⟩ :=
            ih (eraseBuf (p :: rest) p.1) (by simp at hlt hlen ⊢; omega) hinv'
          have h2' : drainFuel db ((p :: rest).length)
              (eraseBuf (p :: rest) p.1) = some ⟨ev2, lg2, none, []⟩ :=
            drainFuel_mono_le db _ _ _ _ h2 (by omega)
          refine ⟨[.selectCollection p.1, .bulkWrite p.1 p.2] ++ ev2,
                  ([] ++ logOf (db.bulkWriteErr p.1 p.2)) ++ lg2, ?_⟩
          simp only [List.length_cons, drainFuel, hw]
          rw [show (eraseBuf (p :: rest) p.1) =
              (⟨[.selectCollection p.1, .bulkWrite p.1 p.2], [],
                db.bulkWriteErr p.1 p.2, eraseBuf (p :: rest) p.1⟩ : WRes).st from rfl] at h2'
          simp only [List.length_cons] at h2'
          rw [h2']

theorem drainFuel_err_none (db : Db) :
    ∀ fuel st r, drainFuel db fuel st = some r → r.err = none ∧ r.st = [] := by
  intro fuel
  induction fuel with
  | zero => intro st r h; simp [drainFuel] at h
  | succ fuel ih =>
      intro st r h
      cases st with
      | nil =>
          simp only [drainFuel, Option.some.injEq] at h
          subst h
          exact ⟨rfl, rfl⟩
      | cons p rest =>
          simp only [drainFuel] at h
          cases hw : writeAllInCollection db (p :: rest) p.1 with
          | none => simp only [hw] at h; exact absurd h (by simp)
          | some r1 =>
              simp only [hw] at h
              cases hd : drainFuel db fuel r1.st with
              | none => simp only [hd] at h; exact absurd h (by simp)
              | some r2 =>
                  simp only [hd, Option.some.injEq] at h
                  subst h
                  simpa using ih r1.st r2 hd

theorem writeAllInCollection_events_shape (db : Db) (st : WState) (n : CName)
    (r : WRes) (h : writeAllInCollection db st n = some r) :
    ∀ e ∈ r.events, e = .selectCollection n ∨ ∃ ds, e = .bulkWrite n ds := by
  unfold writeAllInCollection at h
  cases hl : lookupBuf st n with
  | none => rw [hl] at h; exact absurd h (by simp)
  | some ds =>
      rw [hl] at h
      by_cases hz : ds.length = 0
      · simp only [hz, if_true, Option.some.injEq] at h
        subst h
        intro e he
        exact absurd he (by simp)
      · simp only [hz, if_false, Option.some.injEq] at h
        subst h
        intro e he
        simp only [List.mem_cons, List.mem_singleton] at he
        rcases he with he | he | he
        · exact Or.inl he
        · exact Or.inr ⟨ds, he⟩
        · cases he

theorem drainFuel_events_shape (db : Db) :
    ∀ fuel st r, drainFuel db fuel st = some r →
      ∀ e ∈ r.events,
        (∃ n, e = .selectCollection n) ∨ ∃ n ds, e = .bulkWrite n ds := by
  intro fuel
  induction fuel with
  | zero => intro st r h; simp [drainFuel] at h
  | succ fuel ih =>
      intro st r h
      cases st with
      | nil =>
          simp only [drainFuel, Option.some.injEq] at h
          subst h
          intro e he
          exact absurd he (by simp)
      | cons p rest =>
          simp only [drainFuel] at h
          cases hw : writeAllInCollection db (p :: rest) p.1 with
          | none => simp only [hw] at h; exact absurd h (by simp)
          | some r1 =>
              simp only [hw] at h
              cases hd : drainFuel db fuel r1.st with
              | none => simp only [hd] at h; exact absurd h (by simp)
              | some r2 =>
                  simp only [hd, Option.some.injEq] at h
                  subst h
                  intro e he
                  simp only [List.mem_append] at he
                  rcases he with he | he
                  · rcases writeAllInCollection_events_shape db _ _ _ hw e he with
                      h1 | ⟨ds, h1⟩
                    · exact Or.inl ⟨p.1, h1⟩
                    · exact Or.inr ⟨p.1, ds, h1⟩
                  · exact ih r1.st r2 hd e he

/-! ## addIndices: LIFO characterisation -/

theorem addIndices_nil (db : Db) : addIndices db [] = ⟨[], [], none⟩ := by
  simp [addIndices]

theorem addIndices_concat (db : Db) (recs : List MetaRec) (r : MetaRec) :
    addIndices db (recs ++ [r]) =
      ⟨.createIndexes r.collectionName r.document :: (addIndices db recs).events,
       logOf (db.commandErr r.collectionName r.document) ++ (addIndices db recs).log,
       (addIndices db recs).err⟩ := by
  rw [addIndices]
  split
  · rename_i hl
    simp [List.getLast?_concat] at hl
  · rename_i r' hl
    have hr : r' = r := by
      have := List.getLast?_concat (l := recs) (a := r)
      rw [this] at hl
      exact (Option.some.injEq _ _ ▸ hl).symm
    subst hr
    simp [List.dropLast_concat]

theorem addIndices_eq (db : Db) (recs : List MetaRec) :
    addIndices db recs =
      ⟨recs.reverse.map (fun r => .createIndexes r.collectionName r.document),
       recs.reverse.flatMap (fun r => logOf (db.commandErr r.collectionName r.document)),
       none⟩ := by
  induction recs using List.reverseRecOn with
  | nil => simpa using addIndices_nil db
  | append_singleton l r ih => rw [addIndices_concat, ih]; simp

/-! ## Listener-level characterisations -/

theorem addDocument_events_shape (db : Db) (st : WState) (n : CName) (d : Doc)
    (r : WRes) (h : addDocument db st n d = some r) :
    ∀ e ∈ r.events,
      e = .addDocument n d ∨ e = .selectCollection n ∨ ∃ ds, e = .bulkWrite n ds := by
  unfold addDocument at h
  by_cases hc : 50 < ((lookupBuf (pushDoc st n d) n).getD []).length
  · simp only [hc, if_true] at h
    cases hw : writeAllInCollection db (pushDoc st n d) n with
    | none => simp only [hw] at h; exact absurd h (by simp)
    | some r1 =>
        simp only [hw, Option.some.injEq] at h
        subst h
        intro e he
        simp only [List.mem_cons] at he
        rcases he with he | he
        · exact Or.inl he
        · rcases writeAllInCollection_events_shape db _ _ _ hw e he with h1 | h1
          · exact Or.inr (Or.inl h1)
          · exact Or.inr (Or.inr h1)
  · simp only [hc, if_false, Option.some.injEq] at h
    subst h
    intro e he
    simp only [List.mem_singleton] at he
    exact Or.inl he

theorem onDirectoryL_metadata (env : Env) (st : LState) (segs : List String)
    (h : dirCollectionName segs = some ".metadata") :
    onDirectoryL env st segs = some ⟨[], [], none, st⟩ := by
  simp [onDirectoryL, onDirectory, h]

theorem onDirectoryL_create (env : Env) (st : LState) (segs : List String)
    (c : CName) (h : dirCollectionName segs = some c) (hc : c ≠ ".metadata") :
    onDirectoryL env st segs =
      some ⟨[.createCollection c], [], env.db.createCollectionErr c, st⟩ := by
  simp [onDirectoryL, onDirectory, h, hc, createCollection]

theorem onDirectoryL_events_shape (env : Env) (st : LState) (segs : List String)
    (r : LRes) (h : onDirectoryL env st segs = some r) :
    ∀ e ∈ r.events, ∃ c, e = .createCollection c ∧ c ≠ ".metadata" := by
  unfold onDirectoryL onDirectory at h
  cases hd : dirCollectionName segs with
  | none => simp only [hd] at h; exact absurd h (by simp)
  | some c =>
      simp only [hd] at h
      by_cases hc : c = ".metadata"
      · simp only [hc, if_true, Option.some.injEq] at h
        subst h
        intro e he
        exact absurd he (by simp)
      · simp only [hc, if_false, Option.some.injEq] at h
        subst h
        intro e he
        simp only [createCollection, List.mem_singleton] at he
        exact ⟨c, he, hc⟩

theorem onFile_metadata_disabled (env : Env) (pk : ParserKind) (st : LState)
    (segs : List String) (blob : Blob) (m : String)
    (hf : fileCollectionName segs = some ".metadata")
    (hm : metadataFilename segs = some m) :
    onFile env pk false st segs blob = some ⟨[], [], none, st⟩ := by
  simp [onFile, hf, hm]

theorem onFile_metadata_enabled (env : Env) (pk : ParserKind) (st : LState)
    (segs : List String) (blob : Blob) (m : String)
    (hf : fileCollectionName segs = some ".metadata")
    (hm : metadataFilename segs = some m) :
    onFile env pk true st segs blob =
      some ⟨[.readBlob blob, .parse .json blob], [], none,
            ⟨st.wst, st.meta ++ [⟨m, env.parse .json blob⟩]⟩⟩ := by
  simp [onFile, hf, hm]

theorem onFile_doc (env : Env) (pk : ParserKind) (support : Bool) (st : LState)
    (segs : List String) (blob : Blob) (c : CName) (r : WRes)
    (hf : fileCollectionName segs = some c) (hc : c ≠ ".metadata")
    (ha : addDocument env.db st.wst c (env.parse pk blob) = some r) :
    onFile env pk support st segs blob =
      some ⟨.readBlob blob :: .parse pk blob :: r.events, r.log, r.err,
            ⟨r.st, st.meta⟩⟩ := by
  simp [onFile, hf, hc, ha]

theorem onFile_events_shape (env : Env) (pk : ParserKind) (support : Bool)
    (st : LState) (segs : List String) (blob : Blob) (r : LRes)
    (h : onFile env pk support st segs blob = some r) :
    ∀ e ∈ r.events,
      (∃ b, e = .readBlob b) ∨ (∃ k b, e = .parse k b) ∨
      (∃ c d, e = .addDocument c d ∧ c ≠ ".metadata") ∨
      (∃ c, e = .selectCollection c) ∨ (∃ c ds, e = .bulkWrite c ds) := by
  unfold onFile at h
  cases hf : fileCollectionName segs with
  | none => simp only [hf] at h; exact absurd h (by simp)
  | some c =>
      simp only [hf] at h
      by_cases hc : c = ".metadata"
      · simp only [hc, if_true] at h
        cases hm : metadataFilename segs with
        | none => simp only [hm] at h; exact absurd h (by simp)
        | some m =>
            simp only [hm] at h
            cases support with
            | false =>
                rw [if_pos rfl, Option.some.injEq] at h
                subst h
                intro e he
                exact absurd he (by simp)
            | true =>
                rw [if_neg (by simp), Option.some.injEq] at h
                subst h
                intro e he
                simp only [List.mem_cons] at he
                rcases he with he | he | he
                · exact Or.inl ⟨blob, he⟩
                · exact Or.inr (Or.inl ⟨.json, blob, he⟩)
                · cases he
      · simp only [hc, if_false] at h
        cases ha : addDocument env.db st.wst c (env.parse pk blob) with
        | none => simp only [ha] at h; exact absurd h (by simp)
        | some ra =>
            simp only [ha, Option.some.injEq] at h
            subst h
            intro e he
            simp only [List.mem_cons] at he
            rcases he with he | he | he
            · exact Or.inl ⟨blob, he⟩
            · exact Or.inr (Or.inl ⟨pk, blob, he⟩)
            · rcases addDocument_events_shape env.db _ _ _ _ ha e he with
                h1 | h1 | ⟨ds, h1⟩
              · exact Or.inr (Or.inr (Or.inl ⟨c, env.parse pk blob, h1, hc⟩))
              · exact Or.inr (Or.inr (Or.inr (Or.inl ⟨c, h1⟩)))
              · exact Or.inr (Or.inr (Or.inr (Or.inr ⟨c, ds, h1⟩)))

theorem runEntries_events_shape (env : Env) (pk : ParserKind) (support : Bool) :
    ∀ entries st, ∀ e ∈ (runEntries env pk support entries st).events,
      (∃ b, e = .readBlob b) ∨ (∃ k b, e = .parse k b) ∨
      (∃ c d, e = .addDocument c d ∧ c ≠ ".metadata") ∨
      (∃ c, e = .createCollection c ∧ c ≠ ".metadata") ∨
      (∃ c, e = .selectCollection c) ∨ (∃ c ds, e = .bulkWrite c ds) := by
  intro entries
  induction entries with
  | nil => intro st e he; simp [runEntries] at he
  | cons ent es ih =>
      intro st e he
      cases ent with
      | dir segs =>
          simp only [runEntries] at he
          cases ho : onDirectoryL env st segs with
          | none => simp only [ho] at he; exact absurd he (by simp)
          | some r =>
              simp only [ho, List.mem_append] at he
              rcases he with he | he
              · obtain ⟨c, hce, hcm⟩ := onDirectoryL_events_shape env st segs r ho e he
                exact Or.inr (Or.inr (Or.inr (Or.inl ⟨c, hce, hcm⟩)))
              · exact ih r.st e he
      | file segs blob =>
          simp only [runEntries] at he
          cases ho : onFile env pk support st segs blob with
          | none => simp only [ho] at he; exact absurd he (by simp)
          | some r =>
              simp only [ho, List.mem_append] at he
              rcases he with he | he
              · rcases onFile_events_shape env pk support st segs blob r ho e he with
                  h1 | h1 | h1 | h1 | h1
                · exact Or.inl h1
                · exact Or.inr (Or.inl h1)
                · exact Or.inr (Or.inr (Or.inl h1))
                · exact Or.inr (Or.inr (Or.inr (Or.inr (Or.inl h1))))
                · exact Or.inr (Or.inr (Or.inr (Or.inr (Or.inr h1))))
              · exact ih r.st e he

theorem finish_false (env : Env) (fuel : Nat) (st : LState) (r : WRes)
    (h : drainFuel env.db fuel st.wst = some r) :
    finish env false fuel st = some ⟨r.events, r.log ++ logOf r.err⟩ := by
  simp [finish, h]

theorem finish_true (env : Env) (fuel : Nat) (st : LState) (r : WRes)
    (h : drainFuel env.db fuel st.wst = some r) :
    finish env true fuel st =
      some ⟨r.events ++ (addIndices env.db st.meta).events,
            ((r.log ++ logOf r.err) ++ (addIndices env.db st.meta).log) ++
              logOf (addIndices env.db st.meta).err⟩ := by
  simp [finish, h]

theorem finish_events_shape (env : Env) (support : Bool) (fuel : Nat)
    (st : LState) (f : FRes) (h : finish env support fuel st = some f) :
    ∀ e ∈ f.events,
      (∃ c, e = .selectCollection c) ∨ (∃ c ds, e = .bulkWrite c ds) ∨
      (support = true ∧ ∃ c s, e = .createIndexes c s) := by
  unfold finish at h
  cases hd : drainFuel env.db fuel st.wst with
  | none => simp only [hd] at h; exact absurd h (by simp)
  | some r =>
      simp only [hd] at h
      cases support with
      | false =>
          rw [if_pos rfl, Option.some.injEq] at h
          subst h
          intro e he
          rcases drainFuel_events_shape env.db fuel st.wst r hd e he with h1 | h1
          · exact Or.inl h1
          · exact Or.inr (Or.inl h1)
      | true =>
          rw [if_neg (by simp), Option.some.injEq] at h
          subst h
          intro e he
          simp only [List.mem_append] at he
          rcases he with he | he
          · rcases drainFuel_events_shape env.db fuel st.wst r hd e he with h1 | h1
            · exact Or.inl h1
            · exact Or.inr (Or.inl h1)
          · rw [addIndices_eq] at he
            simp only [List.mem_map] at he
            obtain ⟨rec, _, hrec⟩ := he
            exact Or.inr (Or.inr ⟨rfl, rec.collectionName, rec.document, hrec.symm⟩)

theorem addDocument_winv (db : Db) (st : WState) (n : CName) (d : Doc)
    (hinv : WInv st) :
    ∃ r, addDocument db st n d = some r ∧ WInv r.st := by
  cases hl : lookupBuf st n with
  | none =>
      have h := addDocument_no_flush db st n d (by simp [hl])
      exact ⟨_, h, WInv_pushDoc _ _ _ hinv⟩
  | some ds =>
      by_cases h50 : 50 ≤ ds.length
      · have h := addDocument_flush db st n d ds hl h50
        exact ⟨_, h, WInv_eraseBuf _ _ (WInv_pushDoc _ _ _ hinv)⟩
      · have h := addDocument_no_flush db st n d (by simp [hl]; omega)
        exact ⟨_, h, WInv_pushDoc _ _ _ hinv⟩

/-- Predicate: `touchesMetadata e = true` iff the event sends the reserved name
`.metadata` to `writer.createCollection` or to `writer.addDocument`. -/
def touchesMetadata : Event → Bool
  | .createCollection n => n == ".metadata"
  | .addDocument n _ => n == ".metadata"
  | _ => false

/-- Predicate: `Event.isImport e = true` iff the event belongs to the import pipeline
(collection creation, document dispatch/insertion, index creation, blob
reading/decoding) rather than to connection management or the drop
phase. -/
def Event.isImport : Event → Bool
  | .createCollection _ => true
  | .addDocument _ _ => true
  | .bulkWrite _ _ => true
  | .createIndexes _ _ => true
  | .readBlob _ => true
  | .parse _ _ => true
  | _ => false

theorem dropPhase_events_shape (genv : GoEnv) (mode : DropMode) :
    ∀ e ∈ (dropPhase genv mode).events,
      e = .dropDatabase ∨ e = .listCollections ∨
      (∃ c, e = .selectCollection c) ∨ ∃ c, e = .dropCollection c := by
  cases mode with
  | noDrop => intro e he; simp [dropPhase] at he
  | wholeDb =>
      intro e he
      simp only [dropPhase, List.mem_singleton] at he
      exact Or.inl he
  | subset names =>
      intro e he
      simp only [dropPhase, someCollections, List.mem_flatMap] at he
      obtain ⟨n, _, hn⟩ := he
      simp only [List.mem_cons, List.mem_singleton] at hn
      rcases hn with hn | hn | hn
      · exact Or.inr (Or.inr (Or.inl ⟨n, hn⟩))
      · exact Or.inr (Or.inr (Or.inr ⟨n, hn⟩))
      · cases hn
  | allExisting =>
      intro e he
      cases hres : genv.collectionsRes with
      | error e' =>
          simp only [dropPhase, hres, List.mem_singleton] at he
          exact Or.inr (Or.inl he)
      | ok cols =>
          simp only [dropPhase, hres, someCollections, List.mem_cons] at he
          rcases he with he | he
          · exact Or.inr (Or.inl he)
          · simp only [List.mem_flatMap] at he
            obtain ⟨n, _, hn⟩ := he
            simp only [List.mem_cons, List.mem_singleton] at hn
            rcases hn with hn | hn | hn
            · exact Or.inr (Or.inr (Or.inl ⟨n, hn⟩))
            · exact Or.inr (Or.inr (Or.inr ⟨n, hn⟩))
            · cases hn

/-! ## Concrete instances used by the witnesses and counterexamples -/

/-- A driver that reports no errors at all. -/
def db0 : Db := ⟨fun _ => none, fun _ _ => none, fun _ _ => none, fun _ => none⟩

/-- A driver whose create-collection requests all fail. -/
def dbBad : Db :=
  ⟨fun _ => some "collection already exists", fun _ _ => none,
   fun _ _ => none, fun _ => none⟩

/-- Error-free environment whose decoders all return the document `0`. -/
def env0 : Env := ⟨db0, fun _ _ => 0⟩

/-- Error-free `go` environment. -/
def genv0 : GoEnv := ⟨none, .ok [], none, db0⟩

/-- A `go` environment whose `db.collections()` listing fails. -/
def genvErr : GoEnv := ⟨none, .error "transport reset", none, db0⟩

/-- A dump root holding two top-level directories. -/
def fsm0 : FSModel := ⟨[], ["a", "b"], [], fun _ => []⟩

/-! ## Claim theorems -/

/-- C1: `writer.addDocument` appends the document to the collection's
pending buffer and acknowledges without flushing while the buffer holds
at most 50 documents (no `bulkWrite` is issued, the callback gets
`null`); when the append makes the buffer exceed 50 — i.e. on the 51st
document — exactly one batched insert of all 51 pending documents is
issued and the collection's key is removed from the pending map before
the acknowledgment. -/
theorem c1_addDocument_batching (db : Db) (st : WState) (n : CName) (d : Doc) :
    (((lookupBuf st n).getD []).length + 1 ≤ 50 →
        addDocument db st n d =
          some ⟨[.addDocument n d], [], none, pushDoc st n d⟩ ∧
        lookupBuf (pushDoc st n d) n =
          some ((lookupBuf st n).getD [] ++ [d])) ∧
    (∀ ds, lookupBuf st n = some ds → ds.length = 50 →
        addDocument db st n d =
          some ⟨[.addDocument n d, .selectCollection n, .bulkWrite n (ds ++ [d])],
                [], db.bulkWriteErr n (ds ++ [d]), eraseBuf (pushDoc st n d) n⟩ ∧
        (ds ++ [d]).length = 51 ∧
        lookupBuf (eraseBuf (pushDoc st n d) n) n = none) := by
  constructor
  · intro h
    exact ⟨addDocument_no_flush db st n d h, lookupBuf_pushDoc_self st n d⟩
  · intro ds hl h50
    refine ⟨addDocument_flush db st n d ds hl (le_of_eq h50.symm), ?_,
            lookupBuf_eraseBuf_self _ _⟩
    simp [h50]

/-- Witness for C1 at concrete inputs: an empty buffer accepts a document
without flushing; a 50-document buffer flushes all 51 documents on the
next append and its key is gone afterwards. -/
theorem c1_addDocument_batching_witness :
    (addDocument db0 [] "users" 7 =
        some ⟨[.addDocument "users" 7], [], none, [("users", [7])]⟩) ∧
    (addDocument db0 [("users", List.range 50)] "users" 50 =
        some ⟨[.addDocument "users" 50, .selectCollection "users",
               .bulkWrite "users" (List.range 50 ++ [50])], [], none, []⟩ ∧
     (List.range 50 ++ [50]).length = 51 ∧
     lookupBuf (eraseBuf (pushDoc [("users", List.range 50)] "users" 50) "users")
       "users" = none) := by
  constructor
  · have h := ((c1_addDocument_batching db0 [] "users" 7).1 (by simp [lookupBuf])).1
    simpa [pushDoc] using h
  · have h := (c1_addDocument_batching db0 [("users", List.range 50)] "users" 50).2
      (List.range 50) (by simp [lookupBuf]) (by simp)
    refine ⟨?_, h.2.1, h.2.2⟩
    rw [h.1]
    rfl

/-- C2 counterexample: the claim says the callbacks of `createCollection`,
`addDocument`, `drain` and `addIndices` are always invoked without an
error.  But `writer.createCollection` is `db.createCollection(name, next)`:
the driver's error goes straight to the callback.  With a driver whose
create-collection fails, the callback receives that error. -/
theorem c2_counterexample :
    (createCollection dbBad "users").2 = some "collection already exists" ∧
    (createCollection dbBad "users").2 ≠ none := by
  exact ⟨rfl, by simp [createCollection, dbBad]⟩

/-- C2 (amended): `drain` and `addIndices` do swallow database failures —
whenever they reach their callbacks they pass no error.  But
`createCollection` hands the driver's response directly to its callback,
and `addDocument` passes the batched-insert error to its callback when
the append triggers a flush; those two propagate database errors to
their callers (which log and discard them). -/
theorem c2_error_policy (db : Db) :
    (∀ recs, (addIndices db recs).err = none) ∧
    (∀ fuel st r, drainFuel db fuel st = some r → r.err = none) ∧
    (∀ n, (createCollection db n).2 = db.createCollectionErr n) ∧
    (∀ st n d ds, lookupBuf st n = some ds → 50 ≤ ds.length →
        ∃ r, addDocument db st n d = some r ∧
          r.err = db.bulkWriteErr n (ds ++ [d])) := by
  refine ⟨?_, ?_, fun _ => rfl, ?_⟩
  · intro recs
    rw [addIndices_eq]
  · intro fuel st r h
    exact (drainFuel_err_none db fuel st r h).1
  · intro st n d ds hl h50
    exact ⟨_, addDocument_flush db st n d ds hl h50, rfl⟩

/-- Witness for C2's amended statement at concrete inputs. -/
theorem c2_error_policy_witness :
    (addIndices db0 [⟨"users", 3⟩]).err = none ∧
    (∃ r, drainFuel db0 1 [] = some r ∧ r.err = none) ∧
    (createCollection dbBad "users").2 = dbBad.createCollectionErr "users" ∧
    (∃ r, addDocument dbBad [("users", List.range 50)] "users" 9 = some r ∧
        r.err = dbBad.bulkWriteErr "users" (List.range 50 ++ [9])) := by
  refine ⟨(c2_error_policy db0).1 [⟨"users", 3⟩],
          ⟨⟨[], [], none, []⟩, rfl, (c2_error_policy db0).2.1 1 [] _ rfl⟩,
          (c2_error_policy dbBad).2.2.1 "users",
          (c2_error_policy dbBad).2.2.2 _ "users" 9 (List.range 50)
            (by simp [lookupBuf]) (by simp)⟩

/-- C6: `addIndices` consumes the record list last-in-first-out, issuing
exactly one create-indexes request per record — naming that record's
collection and index specifications — in reverse arrival order, and its
single callback invocation happens after the records are exhausted,
carrying no error (immediately so for the empty list, whose event trace
is empty). -/
theorem c6_addIndices_lifo (db : Db) (recs : List MetaRec) :
    addIndices db recs =
      ⟨recs.reverse.map (fun r => .createIndexes r.collectionName r.document),
       recs.reverse.flatMap
         (fun r => logOf (db.commandErr r.collectionName r.document)),
       none⟩ :=
  addIndices_eq db recs

/-- C9: every key of the pending map holds a non-empty buffer —
`addDocument` only creates or extends buffers and preserves the
invariant — every flush removes the flushed collection's key (strictly
shrinking the pending set), drain therefore terminates on an empty map
with an error-free callback, and drain on an empty pending set
acknowledges immediately. -/
theorem c9_pending_invariant (db : Db) :
    (∀ st n d, WInv st → ∃ r, addDocument db st n d = some r ∧ WInv r.st) ∧
    (∀ st n ds, WInv st → lookupBuf st n = some ds →
        ∃ r, writeAllInCollection db st n = some r ∧
          lookupBuf r.st n = none ∧ r.st.length < st.length) ∧
    (∀ st, WInv st → ∃ r, drainFuel db (st.length + 1) st = some r ∧
        r.st = [] ∧ r.err = none) ∧
    (∀ fuel, drainFuel db (fuel + 1) [] = some ⟨[], [], none, []⟩) := by
  refine ⟨addDocument_winv db, ?_, ?_, fun _ => rfl⟩
  · intro st n ds hinv hl
    have hne := WInv_lookupBuf_ne_nil st n ds hinv hl
    exact ⟨_, writeAllInCollection_eq db st n ds hl hne,
           lookupBuf_eraseBuf_self st n, length_eraseBuf_lt st n ds hl⟩
  · intro st hinv
    obtain ⟨ev, lg, h⟩ := drain_terminates db st.length st le_rfl hinv
    exact ⟨_, h, rfl, rfl⟩

/-- Witness for C9 at concrete inputs. -/
theorem c9_pending_invariant_witness :
    (∃ r, addDocument db0 [("a", [1])] "b" 2 = some r ∧ WInv r.st) ∧
    (∃ r, writeAllInCollection db0 [("a", [1]), ("b", [2])] "a" = some r ∧
        lookupBuf r.st "a" = none ∧ r.st.length < 2) ∧
    (∃ r, drainFuel db0 3 [("a", [1]), ("b", [2])] = some r ∧
        r.st = [] ∧ r.err = none) := by
  refine ⟨(c9_pending_invariant db0).1 [("a", [1])] "b" 2 (by unfold WInv; decide),
          ?_, ?_⟩
  · exact (c9_pending_invariant db0).2.1 [("a", [1]), ("b", [2])] "a" [1]
      (by unfold WInv; decide) (by decide)
  · exact (c9_pending_invariant db0).2.2.1 [("a", [1]), ("b", [2])]
      (by unfold WInv; decide)

/-- C3: with metadata replay enabled, `streamListener.finish` first runs
the writer's drain to completion — its trace contains no create-indexes
request and it ends with an empty pending map — and only then does
`addIndices` run over the accumulated metadata records: the finish trace
is exactly the drain trace followed by the `addIndices` trace, so every
create-indexes request comes after every pending buffer has been drained
to empty. -/
theorem c3_drain_before_index_replay (env : Env) (st : LState)
    (hinv : WInv st.wst) :
    ∃ ev lg,
      finish env true (st.wst.length + 1) st =
        some ⟨ev ++ (addIndices env.db st.meta).events, lg⟩ ∧
      (∀ e ∈ ev, e.isCreateIndexes = false) ∧
      ∃ r, drainFuel env.db (st.wst.length + 1) st.wst = some r ∧
        r.st = [] ∧ r.events = ev := by
  obtain ⟨ev, lg, hd⟩ := drain_terminates env.db st.wst.length st.wst le_rfl hinv
  refine ⟨ev, _, finish_true env _ st _ hd, ?_, ⟨_, hd, rfl, rfl⟩⟩
  intro e he
  rcases drainFuel_events_shape env.db _ _ _ hd e he with ⟨n, h1⟩ | ⟨n, ds, h1⟩ <;>
    simp [h1, Event.isCreateIndexes]

/-- Witness for C3: one pending buffer, one metadata record. -/
theorem c3_drain_before_index_replay_witness :
    WInv [("users", [1])] ∧
    (∃ ev lg,
      finish env0 true 2 ⟨[("users", [1])], [⟨"users", 5⟩]⟩ =
        some ⟨ev ++ (addIndices env0.db [⟨"users", 5⟩]).events, lg⟩ ∧
      (∀ e ∈ ev, e.isCreateIndexes = false) ∧
      ∃ r, drainFuel env0.db 2 [("users", [1])] = some r ∧
        r.st = [] ∧ r.events = ev) :=
  ⟨by unfold WInv; decide,
   c3_drain_before_index_replay env0 ⟨[("users", [1])], [⟨"users", 5⟩]⟩
     (by unfold WInv; decide)⟩

/-- C5: in the "all existing" drop mode, a failing `db.collections()`
listing ends the run with only the connect and list-collections requests
issued: no drop request is made, the import never starts, and the
terminal callback never fires (the handler logs the error and then
throws a `TypeError` reading `collections.length` of `undefined`, so the
run aborts with an uncaught exception). -/
theorem c5_listing_failure_aborts (genv : GoEnv) (bg : BeginOut) (e : Err)
    (hc : genv.connectErr = none) (hl : genv.collectionsRes = .error e) :
    go genv .allExisting bg = ⟨[.connect, .listCollections], [e], none⟩ := by
  simp [go, hc, dropPhase, hl]

/-- Witness for C5 at a concrete environment. -/
theorem c5_listing_failure_aborts_witness :
    go genvErr .allExisting ⟨[], [], some none⟩ =
      ⟨[.connect, .listCollections], ["transport reset"], none⟩ :=
  c5_listing_failure_aborts genvErr ⟨[], [], some none⟩ "transport reset" rfl rfl

theorem entryShape_not_createIndexes {e : Event}
    (h : (∃ b, e = .readBlob b) ∨ (∃ k b, e = .parse k b) ∨
      (∃ c d, e = .addDocument c d ∧ c ≠ ".metadata") ∨
      (∃ c, e = .createCollection c ∧ c ≠ ".metadata") ∨
      (∃ c, e = .selectCollection c) ∨ (∃ c ds, e = .bulkWrite c ds)) :
    e.isCreateIndexes = false := by
  rcases h with ⟨b, h1⟩ | ⟨k, b, h1⟩ | ⟨c, d, h1, _⟩ | ⟨c, h1, _⟩ | ⟨c, h1⟩ |
    ⟨c, ds, h1⟩ <;> subst h1 <;> rfl

theorem entryShape_not_touchesMetadata {e : Event}
    (h : (∃ b, e = .readBlob b) ∨ (∃ k b, e = .parse k b) ∨
      (∃ c d, e = .addDocument c d ∧ c ≠ ".metadata") ∨
      (∃ c, e = .createCollection c ∧ c ≠ ".metadata") ∨
      (∃ c, e = .selectCollection c) ∨ (∃ c ds, e = .bulkWrite c ds)) :
    touchesMetadata e = false := by
  rcases h with ⟨b, h1⟩ | ⟨k, b, h1⟩ | ⟨c, d, h1, h2⟩ | ⟨c, h1, h2⟩ | ⟨c, h1⟩ |
    ⟨c, ds, h1⟩ <;> subst h1 <;> simp [touchesMetadata]
  · exact h2
  · exact h2

/-- C7: with metadata replay disabled, a file entry under the reserved
`.metadata` directory is acknowledged immediately — its event trace is
empty (the stream is never consumed, nothing is decoded) and the
listener state is unchanged — and no create-indexes request appears
anywhere in the trace of a whole run (entries plus finish). -/
theorem c7_metadata_disabled_skips (env : Env) (pk : ParserKind) :
    (∀ st segs blob m,
        fileCollectionName segs = some ".metadata" →
        metadataFilename segs = some m →
        onFile env pk false st segs blob = some ⟨[], [], none, st⟩) ∧
    (∀ fuel entries e, e ∈ (runPipeline env pk false fuel entries).events →
        e.isCreateIndexes = false) := by
  constructor
  · exact fun st segs blob m hf hm =>
      onFile_metadata_disabled env pk st segs blob m hf hm
  · intro fuel entries e he
    unfold runPipeline at he
    by_cases hcr : (runEntries env pk false entries ⟨[], []⟩).crashed = true
    · rw [if_pos hcr] at he
      exact entryShape_not_createIndexes
        (runEntries_events_shape env pk false entries ⟨[], []⟩ e he)
    · rw [if_neg hcr] at he
      cases hf : finish env false fuel (runEntries env pk false entries ⟨[], []⟩).st with
      | none =>
          simp only [hf] at he
          exact entryShape_not_createIndexes
            (runEntries_events_shape env pk false entries ⟨[], []⟩ e he)
      | some f =>
          simp only [hf, List.mem_append] at he
          rcases he with he | he
          · exact entryShape_not_createIndexes
              (runEntries_events_shape env pk false entries ⟨[], []⟩ e he)
          · rcases finish_events_shape env false fuel _ f hf e he with
              ⟨c, h1⟩ | ⟨c, ds, h1⟩ | ⟨hfalse, _⟩
            · subst h1; rfl
            · subst h1; rfl
            · cases hfalse

/-- Witness for C7: a `.metadata` file entry is skipped whole, and a
small disabled-metadata run contains a (non-create-indexes) request. -/
theorem c7_metadata_disabled_skips_witness :
    (onFile env0 .json false ⟨[], []⟩ ["db", ".metadata", "users"] [1] =
        some ⟨[], [], none, ⟨[], []⟩⟩) ∧
    (Event.createCollection "users" ∈
        (runPipeline env0 .json false 1 [.dir ["db", "users"]]).events ∧
     (Event.createCollection "users").isCreateIndexes = false) := by
  refine ⟨(c7_metadata_disabled_skips env0 .json).1 ⟨[], []⟩
            ["db", ".metadata", "users"] [1] "users" (by decide) (by decide),
          ?_, ?_⟩
  · decide
  · exact (c7_metadata_disabled_skips env0 .json).2 1 [.dir ["db", "users"]]
      (Event.createCollection "users") (by decide)

/-- C8: over any dispatched entry sequence (and the finishing
drain/index-replay), the reserved pseudo-collection name `.metadata` is
never passed to `writer.createCollection` and never passed to
`writer.addDocument` as a document destination: a `.metadata` directory
entry is acknowledged without action and `.metadata` file entries are
routed to the metadata-record sequence. -/
theorem c8_reserved_name_never_written (env : Env) (pk : ParserKind)
    (support : Bool) (fuel : Nat) (entries : List Entry) :
    (runPipeline env pk support fuel entries).events.all
      (fun e => !touchesMetadata e) = true := by
  rw [List.all_eq_true]
  intro e he
  suffices h : touchesMetadata e = false by simp [h]
  unfold runPipeline at he
  by_cases hcr : (runEntries env pk support entries ⟨[], []⟩).crashed = true
  · rw [if_pos hcr] at he
    exact entryShape_not_touchesMetadata
      (runEntries_events_shape env pk support entries ⟨[], []⟩ e he)
  · rw [if_neg hcr] at he
    cases hf : finish env support fuel (runEntries env pk support entries ⟨[], []⟩).st with
    | none =>
        simp only [hf] at he
        exact entryShape_not_touchesMetadata
          (runEntries_events_shape env pk support entries ⟨[], []⟩ e he)
    | some f =>
        simp only [hf, List.mem_append] at he
        rcases he with he | he
        · exact entryShape_not_touchesMetadata
            (runEntries_events_shape env pk support entries ⟨[], []⟩ e he)
        · rcases finish_events_shape env support fuel _ f hf e he with
            ⟨c, h1⟩ | ⟨c, ds, h1⟩ | ⟨_, c, s, h1⟩ <;> subst h1 <;> rfl

/-- C10: index-specification blobs under `.metadata` are always decoded
with the JSON parser, whatever decoder the session resolved
(`bson` or a caller-supplied function included), while ordinary document
blobs are decoded with the configured parser and with nothing else. -/
theorem c10_metadata_always_json (env : Env) (opt : ParserOpt) (pk : ParserKind)
    (hsel : selectParserKind opt = .ok pk) :
    (∀ st segs blob m,
        fileCollectionName segs = some ".metadata" →
        metadataFilename segs = some m →
        onFile env pk true st segs blob =
          some ⟨[.readBlob blob, .parse .json blob], [], none,
                ⟨st.wst, st.meta ++ [⟨m, env.parse .json blob⟩]⟩⟩) ∧
    (∀ st segs blob c r,
        fileCollectionName segs = some c → c ≠ ".metadata" →
        onFile env pk true st segs blob = some r →
        ∃ tail, r.events = .readBlob blob :: .parse pk blob :: tail ∧
          ∀ k b, Event.parse k b ∈ tail → False) := by
  refine ⟨fun st segs blob m hf hm =>
            onFile_metadata_enabled env pk st segs blob m hf hm, ?_⟩
  intro st segs blob c r hf hc h
  unfold onFile at h
  simp only [hf] at h
  rw [if_neg hc] at h
  cases ha : addDocument env.db st.wst c (env.parse pk blob) with
  | none => simp only [ha] at h; exact absurd h (by simp)
  | some ra =>
      simp only [ha, Option.some.injEq] at h
      subst h
      refine ⟨ra.events, rfl, ?_⟩
      intro k b hmem
      rcases addDocument_events_shape env.db _ _ _ _ ha _ hmem with
        h1 | h1 | ⟨ds, h1⟩
      · exact Event.noConfusion h1
      · exact Event.noConfusion h1
      · exact Event.noConfusion h1

/-- Witness for C10: with a caller-supplied decoder resolved, an ordinary
document blob is decoded with that decoder, while a `.metadata` blob is
still decoded as JSON. -/
theorem c10_metadata_always_json_witness :
    (selectParserKind (.fn 0) = .ok (.custom 0)) ∧
    (onFile env0 (.custom 0) true ⟨[], []⟩ ["db", ".metadata", "users"] [7] =
        some ⟨[.readBlob [7], .parse .json [7]], [], none,
              ⟨[], [⟨"users", env0.parse .json [7]⟩]⟩⟩) ∧
    (∃ tail,
        (⟨[.readBlob [7], .parse (.custom 0) [7], .addDocument "users" 0], [],
          none, ⟨[("users", [0])], []⟩⟩ : LRes).events =
          .readBlob [7] :: .parse (.custom 0) [7] :: tail ∧
        ∀ k b, Event.parse k b ∈ tail → False) := by
  refine ⟨rfl, ?_, ?_⟩
  · exact (c10_metadata_always_json env0 (.fn 0) (.custom 0) rfl).1
      ⟨[], []⟩ ["db", ".metadata", "users"] [7] "users" (by decide) (by decide)
  · exact (c10_metadata_always_json env0 (.fn 0) (.custom 0) rfl).2
      ⟨[], []⟩ ["db", "users", "d1"] [7] "users" _ (by decide) (by decide)
      (by decide)

/-- C4 counterexample: the claim says a dump root with zero or more than
one top-level directory fails "without touching the database — in
particular, no connection attempt to the target database is made".  But
`go` calls `MongoClient.connect` first and only the later
`datasource.begin` inspects the dump root: with a two-directory root the
trace still opens with a connect request (and the configuration error
reaches the terminal callback only afterwards). -/
theorem c4_counterexample :
    fsm0.rootDirs.length = 2 ∧
    Event.connect ∈ (go genv0 .noDrop (fsBegin env0 .json false 1 fsm0)).events ∧
    (go genv0 .noDrop (fsBegin env0 .json false 1 fsm0)).result =
      some (some configMsg) := by
  refine ⟨rfl, ?_, rfl⟩
  decide

/-- C4 (amended): with a filesystem source whose dump root holds zero or
more than one top-level directory, the run does fail with the
configuration error, delivered to the terminal callback, and no
import-side request (collection creation, document dispatch, insert,
index creation, blob read/decode) is ever issued — but only after a
connection to the target database has been opened (and any configured
drop phase has run): the trace is connect, then the drop phase's
requests, then close. -/
theorem c4_root_check_after_connect (genv : GoEnv) (mode : DropMode)
    (env : Env) (pk : ParserKind) (support : Bool) (fuel : Nat)
    (fsm : FSModel) (hc : genv.connectErr = none)
    (hroot : fsm.rootDirs.length ≠ 1)
    (hdrop : (dropPhase genv mode).res = some none) :
    (go genv mode (fsBegin env pk support fuel fsm)).result =
      some (some configMsg) ∧
    (go genv mode (fsBegin env pk support fuel fsm)).events =
      .connect :: ((dropPhase genv mode).events ++ [.close]) ∧
    ∀ e ∈ (go genv mode (fsBegin env pk support fuel fsm)).events,
      Event.isImport e = false := by
  have hb : fsBegin env pk support fuel fsm =
      ⟨[], [], some (some configMsg)⟩ := by
    unfold fsBegin
    cases hr : fsm.rootDirs with
    | nil => rfl
    | cons a tl =>
        cases tl with
        | nil => rw [hr] at hroot; simp at hroot
        | cons b tl2 => rfl
  have hgo : go genv mode (fsBegin env pk support fuel fsm) =
      ⟨.connect :: ((dropPhase genv mode).events ++ [.close]),
       (dropPhase genv mode).log, some (some configMsg)⟩ := by
    simp [go, hc, hb, hdrop, importDataToDb]
  refine ⟨by rw [hgo], by rw [hgo], ?_⟩
  rw [hgo]
  intro e he
  simp only [List.mem_cons, List.mem_append, List.mem_singleton] at he
  rcases he with he | he | he
  · subst he; rfl
  · rcases dropPhase_events_shape genv mode e he with h1 | h1 | ⟨c, h1⟩ | ⟨c, h1⟩ <;>
      subst h1 <;> rfl
  · rcases he with he | he
    · subst he; rfl
    · cases he

/-- Witness for C4's amended statement at a concrete two-directory root. -/
theorem c4_root_check_after_connect_witness :
    ((go genv0 .wholeDb (fsBegin env0 .json true 1 fsm0)).result =
        some (some configMsg)) ∧
    ((go genv0 .wholeDb (fsBegin env0 .json true 1 fsm0)).events =
        .connect :: ((dropPhase genv0 .wholeDb).events ++ [.close])) ∧
    ∀ e ∈ (go genv0 .wholeDb (fsBegin env0 .json true 1 fsm0)).events,
      Event.isImport e = false :=
  c4_root_check_after_connect genv0 .wholeDb env0 .json true 1 fsm0
    rfl (by decide) rfl

end MongoRestore
